import Mathlib

/-!
# yqlib: the encode / decode operators

A shallow embedding of `pkg/yqlib/operator_encoder_decoder.go` and proofs about
the trailing-newline bookkeeping, the stash of pre-decode originals and the
error paths of `encodeOperator` and `decodeOperator`.

Go strings are embedded as Lean strings (sequences of code points, which is how
the `regexp` package reads them).  Go code that may panic returns a `Run`.
-/

namespace Yqlib

/-! ## The fragment of Go `regexp` used by `encodeOperator` -/

/-- The line feed character, written `\n` in the Go source. -/
def newline : Char := Char.ofNat 10

/-- Syntax of the regular expressions the operators compile.  The flags are
the Go defaults: `.` does not match a line feed (flag `s` off) and `$` only
matches at the end of the text (flag `m` off). -/
inductive Regexp where
  /-- a literal character -/
  | char (c : Char)
  /-- the negated class `[^c]` -/
  | notChar (c : Char)
  /-- the wildcard `.`: any character but a line feed -/
  | anyCharNotNL
  /-- greedy `r*` -/
  | star (r : Regexp)
  /-- greedy `r+` -/
  | plus (r : Regexp)
  /-- concatenation `r₁r₂` -/
  | cat (r₁ r₂ : Regexp)
  /-- the assertion `$`: end of text -/
  | endText
deriving Repr

/-- Greedy iteration of a matcher `f`: every way of applying `f` repeatedly,
more iterations first.  An iteration that consumes nothing is not repeated.
The fuel bounds the number of iterations; the length of the text is enough. -/
def starFuel (f : List Char → List (List Char)) : Nat → List Char → List (List Char)
  | 0, s => [s]
  | n + 1, s => ((f s).filter (fun r => r.length < s.length)).flatMap (starFuel f n) ++ [s]

/-- Backtracking matcher: `r.matchAt s` lists, in order of preference
(leftmost-first, as Go does), what is left of `s` after each way `r` can match
at the start of `s`. -/
def Regexp.matchAt : Regexp → List Char → List (List Char)
  | .char c, s =>
    match s with
    | [] => []
    | d :: rest => if d = c then [rest] else []
  | .notChar c, s =>
    match s with
    | [] => []
    | d :: rest => if d = c then [] else [rest]
  | .anyCharNotNL, s =>
    match s with
    | [] => []
    | d :: rest => if d = newline then [] else [rest]
  | .star r, s => starFuel r.matchAt s.length s
  | .plus r, s => (r.matchAt s).flatMap (fun t => starFuel r.matchAt t.length t)
  | .cat r₁ r₂, s => (r₁.matchAt s).flatMap r₂.matchAt
  | .endText, s =>
    match s with
    | [] => [[]]
    | _ :: _ => []

/-- The method `(*Regexp).MatchString`: the expression matches somewhere in the text. -/
def Regexp.MatchString (re : Regexp) (s : String) : Bool :=
  s.data.tails.any (fun t => !(re.matchAt t).isEmpty)

/-- The scan of `(*Regexp).ReplaceAllString` over what is left of the source.
`skip` counts the characters still inside the match being replaced, `abut`
tells that a match ended exactly here (an empty match there is ignored). -/
def Regexp.replaceAll (re : Regexp) (repl : List Char) : List Char → Nat → Bool → List Char
  | [], _, abut =>
    match (re.matchAt []).head? with
    | some _ => if abut then [] else repl
    | none => []
  | _ :: cs, skip + 1, _ => re.replaceAll repl cs skip true
  | c :: cs, 0, abut =>
    match (re.matchAt (c :: cs)).head? with
    | none => c :: re.replaceAll repl cs 0 false
    | some rest =>
      if (c :: cs).length - rest.length = 0 then
        (if abut then [] else repl) ++ c :: re.replaceAll repl cs 0 false
      else
        repl ++ re.replaceAll repl cs ((c :: cs).length - rest.length - 1) true

/-- The method `(*Regexp).ReplaceAllString`: every non-overlapping match,
leftmost first, is replaced by `repl`. -/
def Regexp.ReplaceAllString (re : Regexp) (src repl : String) : String :=
  ⟨re.replaceAll repl.data src.data 0 false⟩

/-- The expression `regexp.MustCompile("[^\n].*\n$")` of `encodeOperator`. -/
def hasOnlyOneNewLine : Regexp :=
  .cat (.notChar newline) (.cat (.star .anyCharNotNL) (.cat (.char newline) .endText))

/-- The expression `regexp.MustCompile(".*\n$")` of `encodeOperator`. -/
def endWithNewLine : Regexp :=
  .cat (.star .anyCharNotNL) (.cat (.char newline) .endText)

/-- The expression `regexp.MustCompile("\n+$")` of `encodeOperator`. -/
def chomper : Regexp :=
  .cat (.plus (.char newline)) .endText

/-! ## Go values and the document node model -/

/-- A Go `error` value, identified with its message. -/
abbrev GoError := String

/-- Outcome of Go code that may panic. -/
inductive Run (α : Type) where
  /-- the call panicked with this message -/
  | panicked (msg : String)
  /-- the call returned this value -/
  | returned (a : α)

/-- Modelled from the spec: the kind of a document node (§3).  The declaration
is not in the source, which only names `ScalarNode`. -/
inductive Kind where
  | ScalarNode
  | SequenceNode
  | MappingNode
  | AliasNode
  | DocumentNode
deriving DecidableEq, Repr

/-- Modelled from the spec: a pointer to a node, as an index into the arena of
nodes (§9). -/
abbrev NodeRef := Nat

/-- Modelled from the spec: the document node of §3, `CandidateNode` in the
source, whose declaration is missing: kind, tag, value, children, style, the
three comment slots, and the key and parent back-references. -/
structure CandidateNode where
  Kind : Kind
  Tag : String
  Value : String
  Content : List NodeRef
  Style : Nat
  HeadComment : String
  LineComment : String
  FootComment : String
  Key : Option NodeRef
  Parent : Option NodeRef
deriving DecidableEq, Repr

/-- Modelled from the spec: `candidate.AsList()`, missing from the source: the
one-element node sequence holding the node (§3, "previously captured node sequence"). -/
def CandidateNode.AsList (n : CandidateNode) : List CandidateNode := [n]

/-- Modelled from the spec: `candidate.CreateReplacement(kind, tag, value)`,
missing from the source: a fresh node of that kind, tag and value that takes the
place of `n` in the tree (§3 "replacement, not mutation", §4.4 "replaces the
node as a Scalar tagged string"), so it keeps the key and parent of `n`. -/
def CandidateNode.CreateReplacement (n : CandidateNode) (kind : Yqlib.Kind) (tag value : String) :
    CandidateNode :=
  { Kind := kind, Tag := tag, Value := value, Content := [], Style := 0,
    HeadComment := "", LineComment := "", FootComment := "",
    Key := n.Key, Parent := n.Parent }

/-- Modelled from the spec: the match context of §3, `Context` in the source,
whose declaration is missing: the selected nodes (a `*list.List`, `none` when
the pointer is nil) and the variable environment (a Go map from names to node
lists, `none` when the name is unbound or bound to a nil list). -/
structure Context where
  MatchingNodes : Option (List CandidateNode)
  Variables : String → Option (List CandidateNode)

/-- The zero value `Context{}`. -/
def Context.empty : Context := ⟨none, fun _ => none⟩

/-- Modelled from the spec: `context.GetVariable(name)`, a lookup in the variable environment. -/
def Context.GetVariable (n : Context) (name : String) : Option (List CandidateNode) :=
  n.Variables name

/-- Modelled from the spec: `context.SetVariable(name, value)`, binding `name` in the
variable environment (a later binding of the same name replaces the earlier one). -/
def Context.SetVariable (n : Context) (name : String) (value : List CandidateNode) : Context :=
  { n with Variables := fun k => if k = name then some value else n.Variables k }

/-- Modelled from the spec: `context.ChildContext(results)`, the context an operator
hands to the next stage (§3): the new selection with the same variable environment. -/
def Context.ChildContext (n : Context) (results : List CandidateNode) : Context :=
  { MatchingNodes := some results, Variables := n.Variables }

/-- The output formats `configureEncoder` switches on.  The declaration is not in
the source; `other` stands for every further value of the underlying integer type. -/
inductive PrinterOutputFormat where
  | JSONOutputFormat
  | PropsOutputFormat
  | CSVOutputFormat
  | TSVOutputFormat
  | YamlOutputFormat
  | XMLOutputFormat
  | Base64OutputFormat
  | UriOutputFormat
  | ShOutputFormat
  | other (code : Nat)
deriving DecidableEq, Repr

/-- The input formats `createDecoder` switches on.  The declaration is not in
the source; `other` stands for every further value of the underlying integer type. -/
inductive InputFormat where
  | JsonInputFormat
  | YamlInputFormat
  | XMLInputFormat
  | Base64InputFormat
  | PropertiesInputFormat
  | CSVObjectInputFormat
  | TSVObjectInputFormat
  | UriInputFormat
  | other (code : Nat)
deriving DecidableEq, Repr

/-- The parts of package `yqlib` the two operators call and the source does not
hold, taken as parameters: the path key of a node, the codec constructors with
their configured preferences, printing through an encoder, and the two methods
of a decoder.  A decoder is a value of `Decoder` (its cursor state); `Init` and
`Decode` return the decoder as the call left it. -/
structure Library where
  /-- `candidate.GetKey()` -/
  GetKey : CandidateNode → String
  CsvPreferences : Type
  YamlPreferences : Type
  XmlPreferences : Type
  ConfiguredCsvPreferences : CsvPreferences
  ConfiguredTsvPreferences : CsvPreferences
  ConfiguredYamlPreferences : YamlPreferences
  ConfiguredXMLPreferences : XmlPreferences
  Encoder : Type
  NewJSONEncoder : Int → Bool → Bool → Encoder
  NewPropertiesEncoder : Bool → Encoder
  NewCsvEncoder : CsvPreferences → Encoder
  NewYamlEncoder : Int → Bool → YamlPreferences → Encoder
  NewXMLEncoder : Int → XmlPreferences → Encoder
  NewBase64Encoder : Encoder
  NewUriEncoder : Encoder
  NewShEncoder : Encoder
  /-- `NewPrinter(encoder, NewSinglePrinterWriter(bufio.NewWriter(&output))).PrintResults(nodes)`:
  what the buffer `output` holds afterwards, and the error returned -/
  PrintResults : Encoder → List CandidateNode → String × Option GoError
  Decoder : Type
  NewJSONDecoder : Decoder
  NewYamlDecoder : YamlPreferences → Decoder
  NewXMLDecoder : XmlPreferences → Decoder
  NewBase64Decoder : Decoder
  NewPropertiesDecoder : Decoder
  NewCSVObjectDecoder : CsvPreferences → Decoder
  NewUriDecoder : Decoder
  /-- `decoder.Init(strings.NewReader(text))` -/
  Init : Decoder → String → Decoder × Option GoError
  /-- `decoder.Decode()` -/
  Decode : Decoder → Decoder × Except GoError CandidateNode

/-! ## The operators -/

/-- `configureEncoder`: the encoder of an output format; panics when no case applies. -/
def configureEncoder (lib : Library) (format : PrinterOutputFormat) (indent : Int) :
    Run (Option lib.Encoder) :=
  match format with
  | .JSONOutputFormat => .returned (some (lib.NewJSONEncoder indent false false))
  | .PropsOutputFormat => .returned (some (lib.NewPropertiesEncoder true))
  | .CSVOutputFormat => .returned (some (lib.NewCsvEncoder lib.ConfiguredCsvPreferences))
  | .TSVOutputFormat => .returned (some (lib.NewCsvEncoder lib.ConfiguredTsvPreferences))
  | .YamlOutputFormat =>
    .returned (some (lib.NewYamlEncoder indent false lib.ConfiguredYamlPreferences))
  | .XMLOutputFormat => .returned (some (lib.NewXMLEncoder indent lib.ConfiguredXMLPreferences))
  | .Base64OutputFormat => .returned (some lib.NewBase64Encoder)
  | .UriOutputFormat => .returned (some lib.NewUriEncoder)
  | .ShOutputFormat => .returned (some lib.NewShEncoder)
  | .other _ => .panicked "invalid encoder"

/-- The struct `encoderPreferences`. -/
structure encoderPreferences where
  format : PrinterOutputFormat
  indent : Int
deriving DecidableEq, Repr

/-- `encodeToString`: the text of one node and the error of printing it. -/
def encodeToString (lib : Library) (candidate : CandidateNode) (prefs : encoderPreferences) :
    Run (String × Option GoError) :=
  match configureEncoder lib prefs.format prefs.indent with
  | .panicked msg => .panicked msg
  | .returned none => .returned ("", some "no support for output format")
  | .returned (some encoder) => .returned (lib.PrintResults encoder candidate.AsList)

/-- One turn of the loop of `encodeOperator` (lines 66 to 92): the node pushed
onto `results`, or the error the operator returns. -/
def encodeOperator.body (lib : Library) (context : Context) (preferences : encoderPreferences)
    (candidate : CandidateNode) : Run (Except GoError CandidateNode) :=
  match encodeToString lib candidate preferences with
  | .panicked msg => .panicked msg
  | .returned (_, some err) => .returned (.error err)
  | .returned (stringValue, none) =>
    let originalList := context.GetVariable ("decoded: " ++ lib.GetKey candidate)
    let stringValue :=
      match originalList with
      | some (original :: _) =>
        if hasOnlyOneNewLine.MatchString stringValue then
          if !endWithNewLine.MatchString original.Value then
            chomper.ReplaceAllString stringValue ""
          else stringValue
        else stringValue
      | _ => stringValue
    let stringValue :=
      if (preferences.format = .JSONOutputFormat ∧ preferences.indent = 0) ∨
          preferences.format = .CSVOutputFormat ∨
          preferences.format = .TSVOutputFormat then
        chomper.ReplaceAllString stringValue ""
      else stringValue
    .returned (.ok (candidate.CreateReplacement .ScalarNode "!!str" stringValue))

/-- The loop of `encodeOperator` over what is left of `context.MatchingNodes`. -/
def encodeOperator.loop (lib : Library) (context : Context) (preferences : encoderPreferences) :
    List CandidateNode → List CandidateNode → Run (Context × Option GoError)
  | [], results => .returned (context.ChildContext results, none)
  | candidate :: rest, results =>
    match encodeOperator.body lib context preferences candidate with
    | .panicked msg => .panicked msg
    | .returned (.error err) => .returned (Context.empty, some err)
    | .returned (.ok node) =>
      encodeOperator.loop lib context preferences rest (results ++ [node])

/-- `encodeOperator`: replaces every selected node by the scalar holding its
encoded text.  Walking a nil `MatchingNodes` dereferences a nil pointer. -/
def encodeOperator (lib : Library) (context : Context) (preferences : encoderPreferences) :
    Run (Context × Option GoError) :=
  match context.MatchingNodes with
  | none => .panicked "invalid memory address or nil pointer dereference"
  | some nodes => encodeOperator.loop lib context preferences nodes []

/-- The struct `decoderPreferences`. -/
structure decoderPreferences where
  format : InputFormat
deriving DecidableEq, Repr

/-- `createDecoder`: the decoder of an input format, nil (`none`) when no case applies. -/
def createDecoder (lib : Library) (format : InputFormat) : Option lib.Decoder :=
  match format with
  | .JsonInputFormat => some lib.NewJSONDecoder
  | .YamlInputFormat => some (lib.NewYamlDecoder lib.ConfiguredYamlPreferences)
  | .XMLInputFormat => some (lib.NewXMLDecoder lib.ConfiguredXMLPreferences)
  | .Base64InputFormat => some lib.NewBase64Decoder
  | .PropertiesInputFormat => some lib.NewPropertiesDecoder
  | .CSVObjectInputFormat => some (lib.NewCSVObjectDecoder lib.ConfiguredCsvPreferences)
  | .TSVObjectInputFormat => some (lib.NewCSVObjectDecoder lib.ConfiguredTsvPreferences)
  | .UriInputFormat => some lib.NewUriDecoder
  | .other _ => none

/-- What a call of `decodeOperator` leaves: its own `context` as the calls of
`SetVariable` left it, and the two values it returns. -/
structure DecodeOutcome where
  context : Context
  result : Context
  err : Option GoError

/-- The loop of `decodeOperator` over what is left of `context.MatchingNodes`. -/
def decodeOperator.loop (lib : Library) :
    lib.Decoder → Context → List CandidateNode → List CandidateNode → DecodeOutcome
  | _, context, [], results => ⟨context, context.ChildContext results, none⟩
  | decoder, context, candidate :: rest, results =>
    let context := context.SetVariable ("decoded: " ++ lib.GetKey candidate) candidate.AsList
    match lib.Init decoder candidate.Value with
    | (_, some err) => ⟨context, Context.empty, some err⟩
    | (decoder, none) =>
      match lib.Decode decoder with
      | (_, .error errorReading) => ⟨context, Context.empty, some errorReading⟩
      | (decoder, .ok node) =>
        let node := { node with Key := candidate.Key, Parent := candidate.Parent }
        decodeOperator.loop lib decoder context rest (results ++ [node])

/-- `decodeOperator`: replaces every selected node by the document decoded from
its value.  Walking a nil `MatchingNodes` dereferences a nil pointer. -/
def decodeOperator (lib : Library) (context : Context) (preferences : decoderPreferences) :
    Run DecodeOutcome :=
  match createDecoder lib preferences.format with
  | none => .returned ⟨context, Context.empty, some "no support for input format"⟩
  | some decoder =>
    match context.MatchingNodes with
    | none => .panicked "invalid memory address or nil pointer dereference"
    | some nodes => .returned (decodeOperator.loop lib decoder context nodes [])

/-! ## Notions used to state the properties -/

/-- Matcher of a one-character class: the common shape of `c`, `[^c]` and `.`. -/
def stepChar (p : Char → Bool) : List Char → List (List Char)
  | [] => []
  | d :: rest => if p d then [rest] else []

/-- The last character of a text, when it has one. -/
def lastChar (s : String) : Option Char := s.data.getLast?

/-- The character before the last one, when the text has two characters. -/
def charBeforeLast (s : String) : Option Char := s.data.dropLast.getLast?

/-- The text without its last character. -/
def dropLastChar (s : String) : String := ⟨s.data.dropLast⟩

/-- The text without its trailing line feeds. -/
def stripTrailingNewlines (s : String) : String :=
  ⟨s.data.rdropWhile (fun c => decide (c = newline))⟩

/-- The formats printed on a single line: JSON with indent 0, CSV and TSV. -/
def singleLine (prefs : encoderPreferences) : Prop :=
  (prefs.format = .JSONOutputFormat ∧ prefs.indent = 0) ∨
    prefs.format = .CSVOutputFormat ∨ prefs.format = .TSVOutputFormat

instance (prefs : encoderPreferences) : Decidable (singleLine prefs) := by
  unfold singleLine; infer_instance

/-- The trailing-newline normalisation, worded on the characters of the text
instead of regular expressions.  With a stash whose first node has a value that
does not end with a line feed, a text that ends with a line feed following
another character loses that line feed; then, for a single-line format, every
trailing line feed goes. -/
def normaliseTrailingNewline (prefs : encoderPreferences)
    (stash : Option (List CandidateNode)) (text : String) : String :=
  let kept :=
    match stash with
    | some (original :: _) =>
      if lastChar text = some newline ∧ charBeforeLast text ≠ none ∧
          charBeforeLast text ≠ some newline ∧ lastChar original.Value ≠ some newline then
        dropLastChar text
      else text
    | _ => text
  if singleLine prefs then stripTrailingNewlines kept else kept

/-- The variable environment once the originals of `nodes` are stashed, in order. -/
def stashOriginals (lib : Library) (context : Context) (nodes : List CandidateNode) : Context :=
  nodes.foldl (fun c n => c.SetVariable ("decoded: " ++ lib.GetKey n) n.AsList) context

/-- `DecodeRun lib d nodes results d'`: starting from the decoder `d`, each node
of `nodes` in turn is given to one `Init` on its value and one `Decode`, both
without error; `results` are the decoded roots, each with the key and parent of
its node, and `d'` is the decoder after the last call. -/
inductive DecodeRun (lib : Library) :
    lib.Decoder → List CandidateNode → List CandidateNode → lib.Decoder → Prop where
  | nil (d : lib.Decoder) : DecodeRun lib d [] [] d
  | cons {d d₁ d₂ d₃ : lib.Decoder} {candidate node : CandidateNode}
      {rest results : List CandidateNode}
      (hInit : lib.Init d candidate.Value = (d₁, none))
      (hDecode : lib.Decode d₁ = (d₂, .ok node))
      (hRest : DecodeRun lib d₂ rest results d₃) :
      DecodeRun lib d (candidate :: rest)
        ({ node with Key := candidate.Key, Parent := candidate.Parent } :: results) d₃

/-! ## A concrete instance of the library -/

/-- A string scalar with the given value, under the given key of the root. -/
def sampleScalar (value : String) (key : Option NodeRef) : CandidateNode :=
  { Kind := .ScalarNode, Tag := "!!str", Value := value, Content := [], Style := 0,
    HeadComment := "", LineComment := "", FootComment := "", Key := key, Parent := none }

/-- An alias node, which the sample encoders refuse. -/
def sampleAlias (key : Option NodeRef) : CandidateNode :=
  { sampleScalar "" key with Kind := .AliasNode, Tag := "" }

/-- A library whose encoders print the value of each node on a line of its own
and refuse alias nodes, and whose decoders read the text as one string scalar
and refuse a text starting with `!`.  The key of a node spells its position:
one `p` per unit of the parent reference, one `k` per unit of the key reference. -/
def sampleLibrary : Library where
  GetKey n := ⟨List.replicate (n.Parent.getD 0) 'p' ++ List.replicate (n.Key.getD 0) 'k'⟩
  CsvPreferences := Unit
  YamlPreferences := Unit
  XmlPreferences := Unit
  ConfiguredCsvPreferences := ()
  ConfiguredTsvPreferences := ()
  ConfiguredYamlPreferences := ()
  ConfiguredXMLPreferences := ()
  Encoder := Unit
  NewJSONEncoder _ _ _ := ()
  NewPropertiesEncoder _ := ()
  NewCsvEncoder _ := ()
  NewYamlEncoder _ _ _ := ()
  NewXMLEncoder _ _ := ()
  NewBase64Encoder := ()
  NewUriEncoder := ()
  NewShEncoder := ()
  PrintResults _ nodes :=
    if nodes.any (fun n => decide (n.Kind = .AliasNode)) then
      ("", some "cannot encode an alias")
    else
      (String.join (nodes.map (fun n => n.Value ++ "\n")), none)
  Decoder := Option String
  NewJSONDecoder := none
  NewYamlDecoder _ := none
  NewXMLDecoder _ := none
  NewBase64Decoder := none
  NewPropertiesDecoder := none
  NewCSVObjectDecoder _ := none
  NewUriDecoder := none
  Init _ text := (some text, none)
  Decode d :=
    match d with
    | none => (none, .error "EOF")
    | some text =>
      if text.data.head? = some '!' then (none, .error "syntax error")
      else (none, .ok (sampleScalar text none))

/-- A context selecting `nodes`, whose variable `name` holds `stash`. -/
def sampleContext (nodes : List CandidateNode) (name : String) (stash : List CandidateNode) :
    Context :=
  { MatchingNodes := some nodes, Variables := fun k => if k = name then some stash else none }

/-- The selection of one empty string scalar under key 1, whose original (the
empty text, which has no final line feed) is stashed. -/
def loneNewlineContext : Context :=
  sampleContext [sampleScalar "" (some 1)] "decoded: k" [sampleScalar "" (some 1)]

/-- The selection of the scalar `cat: 3` under key 1, whose original `cat: 3`
(no final line feed) is stashed. -/
def catContext : Context :=
  sampleContext [sampleScalar "cat: 3" (some 1)] "decoded: k" [sampleScalar "cat: 3" (some 1)]

/-- The selection of the scalar `cat: 3` under key 1, whose original ended with a line feed. -/
def catNewlineContext : Context :=
  sampleContext [sampleScalar "cat: 3" (some 1)] "decoded: k" [sampleScalar "cat: 3\n" (some 1)]

/-- The selection of two scalars built by an expression: neither has a key or a
parent, so both have the same path key. -/
def collidingContext : Context :=
  { MatchingNodes := some [sampleScalar "x" none, sampleScalar "y" none],
    Variables := fun _ => none }

/-- A selection whose second node holds a text the sample decoders refuse. -/
def badTextContext : Context :=
  { MatchingNodes :=
      some [sampleScalar "a" none, sampleScalar "!bad" (some 1), sampleScalar "c" (some 2)],
    Variables := fun _ => none }

/-- A selection whose second node is an alias, which the sample encoders refuse. -/
def aliasContext : Context :=
  { MatchingNodes := some [sampleScalar "a" none, sampleAlias (some 1), sampleScalar "c" (some 2)],
    Variables := fun _ => none }

/-! ## Lemmas on the matcher -/

theorem matchAt_char (c : Char) :
    (Regexp.char c).matchAt = stepChar (fun d => decide (d = c)) := by
  funext s
  cases s <;> simp [Regexp.matchAt, stepChar]

theorem matchAt_notChar (c : Char) :
    (Regexp.notChar c).matchAt = stepChar (fun d => !decide (d = c)) := by
  funext s
  cases s with
  | nil => simp [Regexp.matchAt, stepChar]
  | cons d rest => by_cases h : d = c <;> simp [Regexp.matchAt, stepChar, h]

theorem matchAt_anyCharNotNL :
    Regexp.anyCharNotNL.matchAt = stepChar (fun d => !decide (d = newline)) := by
  funext s
  cases s with
  | nil => simp [Regexp.matchAt, stepChar]
  | cons d rest => by_cases h : d = newline <;> simp [Regexp.matchAt, stepChar, h]

/-- What follows a greedy iteration of a one-character class: the class takes
any prefix made of its characters and the continuation `g` takes over. -/
theorem mem_starFuel_stepChar_flatMap (p : Char → Bool) (g : List Char → List (List Char))
    (x : List Char) :
    ∀ (n : Nat) (t : List Char), t.length ≤ n →
      (x ∈ (starFuel (stepChar p) n t).flatMap g ↔
        ∃ pre suf, t = pre ++ suf ∧ (∀ c ∈ pre, p c = true) ∧ x ∈ g suf) := by
  intro n
  induction n with
  | zero =>
    intro t ht
    have : t = [] := List.length_eq_zero.mp (Nat.le_zero.mp ht)
    subst this
    simp [starFuel]
    constructor
    · intro h
      exact ⟨[], [], ⟨rfl, rfl⟩, by simp, h⟩
    · rintro ⟨pre, suf, ⟨rfl, rfl⟩, _, h⟩
      exact h
  | succ n ih =>
    intro t ht
    cases t with
    | nil =>
      simp [starFuel, stepChar]
      constructor
      · intro h
        exact ⟨[], [], ⟨rfl, rfl⟩, by simp, h⟩
      · rintro ⟨pre, suf, ⟨rfl, rfl⟩, _, h⟩
        exact h
    | cons d r =>
      have hr : r.length ≤ n := by simpa using ht
      by_cases hd : p d = true
      · simp only [starFuel, stepChar, hd, if_true, List.filter_cons, List.length_cons,
          Nat.lt_succ_self, decide_True, List.filter_nil, List.flatMap_cons, List.flatMap_nil,
          List.append_nil, List.flatMap_append, List.mem_append, ih r hr]
        constructor
        · rintro (⟨pre, suf, rfl, hp, hx⟩ | hx)
          · refine ⟨d :: pre, suf, rfl, ?_, hx⟩
            intro c hc
            rcases List.mem_cons.mp hc with rfl | hc
            · exact hd
            · exact hp c hc
          · exact ⟨[], d :: r, rfl, by simp, hx⟩
        · rintro ⟨pre, suf, h, hp, hx⟩
          cases pre with
          | nil =>
            right
            simp only [List.nil_append] at h
            rw [h]; exact hx
          | cons e pre =>
            left
            simp only [List.cons_append, List.cons.injEq] at h
            exact ⟨pre, suf, h.2, fun c hc => hp c (List.mem_cons_of_mem _ hc), hx⟩
      · simp only [starFuel, stepChar, hd, Bool.false_eq_true, if_false, List.filter_nil,
          List.flatMap_nil, List.nil_append, List.flatMap_cons, List.append_nil]
        constructor
        · intro hx
          exact ⟨[], d :: r, rfl, by simp, hx⟩
        · rintro ⟨pre, suf, h, hp, hx⟩
          cases pre with
          | nil =>
            simp only [List.nil_append] at h
            rw [h]; exact hx
          | cons e pre =>
            simp only [List.cons_append, List.cons.injEq] at h
            exact absurd (h.1 ▸ hp e (List.mem_cons_self _ _)) hd

theorem matchString_iff (re : Regexp) (s : String) :
    re.MatchString s = true ↔ ∃ t x, t <:+ s.data ∧ x ∈ re.matchAt t := by
  simp only [Regexp.MatchString, List.any_eq_true, List.mem_tails, Bool.not_eq_true',
    List.isEmpty_eq_false]
  constructor
  · rintro ⟨t, ht, hne⟩
    obtain ⟨x, hx⟩ := List.exists_mem_of_ne_nil _ hne
    exact ⟨t, x, ht, hx⟩
  · rintro ⟨t, x, ht, hx⟩
    exact ⟨t, ht, List.ne_nil_of_mem hx⟩

/-- The tail `\n$` matches exactly at a final line feed. -/
theorem mem_matchAt_newline_endText (x suf : List Char) :
    x ∈ (Regexp.cat (.char newline) .endText).matchAt suf ↔ suf = [newline] ∧ x = [] := by
  cases suf with
  | nil => simp [Regexp.matchAt]
  | cons d r =>
    by_cases hd : d = newline
    · cases r <;> simp [Regexp.matchAt, hd]
    · simp [Regexp.matchAt, hd]

/-- Where `.*\n$` matches: at a last line that ends the text with a line feed. -/
theorem mem_matchAt_endWithNewLine (x t : List Char) :
    x ∈ endWithNewLine.matchAt t ↔
      ∃ pre, t = pre ++ [newline] ∧ (∀ c ∈ pre, c ≠ newline) ∧ x = [] := by
  have h : endWithNewLine.matchAt t =
      (starFuel (stepChar (fun d => !decide (d = newline))) t.length t).flatMap
        (Regexp.cat (.char newline) .endText).matchAt := by
    rw [← matchAt_anyCharNotNL]; rfl
  rw [h, mem_starFuel_stepChar_flatMap _ _ _ _ _ (Nat.le_refl _)]
  constructor
  · rintro ⟨pre, suf, rfl, hp, hx⟩
    rw [mem_matchAt_newline_endText] at hx
    obtain ⟨rfl, rfl⟩ := hx
    exact ⟨pre, rfl, fun c hc => by simpa using hp c hc, rfl⟩
  · rintro ⟨pre, rfl, hp, rfl⟩
    exact ⟨pre, [newline], rfl, fun c hc => by simpa using hp c hc,
      (mem_matchAt_newline_endText _ _).mpr ⟨rfl, rfl⟩⟩

/-- Meaning of `endWithNewLine.MatchString`: the last character is a line feed. -/
theorem endWithNewLine_matchString (s : String) :
    endWithNewLine.MatchString s = true ↔ ∃ pre, s.data = pre ++ [newline] := by
  rw [matchString_iff]
  constructor
  · rintro ⟨t, x, ⟨a, ha⟩, hx⟩
    obtain ⟨pre, rfl, -, -⟩ := (mem_matchAt_endWithNewLine _ _).mp hx
    exact ⟨a ++ pre, by rw [← ha, List.append_assoc]⟩
  · rintro ⟨pre, h⟩
    exact ⟨[newline], [], ⟨pre, h.symm⟩,
      (mem_matchAt_endWithNewLine _ _).mpr ⟨[], rfl, by simp, rfl⟩⟩

/-- Where `[^\n].*\n$` matches: at a non-empty last line that ends the text with a line feed. -/
theorem mem_matchAt_hasOnlyOneNewLine (x t : List Char) :
    x ∈ hasOnlyOneNewLine.matchAt t ↔
      ∃ d pre, t = d :: pre ++ [newline] ∧ d ≠ newline ∧ (∀ c ∈ pre, c ≠ newline) ∧ x = [] := by
  have h : hasOnlyOneNewLine.matchAt t =
      ((Regexp.notChar newline).matchAt t).flatMap endWithNewLine.matchAt := rfl
  rw [h, matchAt_notChar]
  cases t with
  | nil => simp [stepChar]
  | cons d r =>
    by_cases hd : d = newline
    · simp only [stepChar, hd, decide_True, Bool.not_true, Bool.false_eq_true, if_false,
        List.flatMap_nil, List.not_mem_nil, false_iff]
      rintro ⟨e, pre, h, he, -, -⟩
      simp only [List.cons_append, List.cons.injEq] at h
      exact he h.1.symm
    · simp only [stepChar, hd, decide_False, Bool.not_false, if_true, List.flatMap_cons,
        List.flatMap_nil, List.append_nil, mem_matchAt_endWithNewLine]
      constructor
      · rintro ⟨pre, rfl, hp, rfl⟩
        exact ⟨d, pre, rfl, hd, hp, rfl⟩
      · rintro ⟨e, pre, h, -, hp, rfl⟩
        simp only [List.cons_append, List.cons.injEq] at h
        exact ⟨pre, h.2, hp, rfl⟩

/-- Meaning of `hasOnlyOneNewLine.MatchString`: the text ends with a line feed
that follows a character which is not a line feed. -/
theorem hasOnlyOneNewLine_matchString (s : String) :
    hasOnlyOneNewLine.MatchString s = true ↔
      ∃ pre c, s.data = pre ++ [c, newline] ∧ c ≠ newline := by
  rw [matchString_iff]
  constructor
  · rintro ⟨t, x, ⟨a, ha⟩, hx⟩
    obtain ⟨d, pre, rfl, hd, hp, -⟩ := (mem_matchAt_hasOnlyOneNewLine _ _).mp hx
    rcases List.eq_nil_or_concat pre with rfl | ⟨q, c, rfl⟩
    · exact ⟨a, d, by rw [← ha]; rfl, hd⟩
    · refine ⟨a ++ d :: q, c, ?_, hp c (by simp)⟩
      rw [← ha]; simp
  · rintro ⟨pre, c, h, hc⟩
    exact ⟨[c, newline], [], ⟨pre, h.symm⟩,
      (mem_matchAt_hasOnlyOneNewLine _ _).mpr ⟨c, [], rfl, hc, by simp, rfl⟩⟩

/-- Where `\n+$` matches: at a non-empty run of line feeds that ends the text. -/
theorem mem_matchAt_chomper (x t : List Char) :
    x ∈ chomper.matchAt t ↔ t ≠ [] ∧ (∀ c ∈ t, c = newline) ∧ x = [] := by
  have h : chomper.matchAt t =
      ((stepChar (fun d => decide (d = newline)) t).flatMap
        (fun u => starFuel (stepChar (fun d => decide (d = newline))) u.length u)).flatMap
        Regexp.endText.matchAt := by
    rw [← matchAt_char]; rfl
  have hend : ∀ suf : List Char, x ∈ Regexp.endText.matchAt suf ↔ suf = [] ∧ x = [] := by
    intro suf
    cases suf <;> simp [Regexp.matchAt]
  rw [h]
  cases t with
  | nil => simp [stepChar]
  | cons d r =>
    by_cases hd : d = newline
    · simp only [stepChar, hd, decide_True, if_true, List.flatMap_cons, List.flatMap_nil,
        List.append_nil, mem_starFuel_stepChar_flatMap _ _ _ _ _ (Nat.le_refl _), hend]
      constructor
      · rintro ⟨pre, suf, rfl, hp, rfl, rfl⟩
        refine ⟨by simp, ?_, rfl⟩
        intro c hc
        rcases List.mem_cons.mp hc with rfl | hc
        · rfl
        · simpa using hp c (by simpa using hc)
      · rintro ⟨-, hall, rfl⟩
        exact ⟨r, [], by simp, fun c hc => by simpa using hall c (List.mem_cons_of_mem _ hc),
          rfl, rfl⟩
    · simp only [stepChar, hd, decide_False, Bool.false_eq_true, if_false, List.flatMap_nil,
        List.not_mem_nil, false_iff]
      rintro ⟨-, hall, -⟩
      exact hd (hall d (List.mem_cons_self _ _))

theorem head?_matchAt_chomper (t : List Char) :
    (chomper.matchAt t).head? =
      if t ≠ [] ∧ ∀ c ∈ t, c = newline then some [] else none := by
  cases h : chomper.matchAt t with
  | nil =>
    have hno : ¬ (t ≠ [] ∧ ∀ c ∈ t, c = newline) := by
      intro hc
      have : ([] : List Char) ∈ chomper.matchAt t := (mem_matchAt_chomper _ _).mpr ⟨hc.1, hc.2, rfl⟩
      rw [h] at this
      exact List.not_mem_nil _ this
    rw [if_neg hno]; rfl
  | cons x l =>
    have hx : x ∈ chomper.matchAt t := by rw [h]; exact List.mem_cons_self _ _
    obtain ⟨h1, h2, rfl⟩ := (mem_matchAt_chomper _ _).mp hx
    rw [if_pos ⟨h1, h2⟩]; rfl

/-- Once inside a match that reaches the end of the text, nothing more is written. -/
theorem replaceAll_skip (re : Regexp) (repl : List Char) :
    ∀ (cs : List Char) (k : Nat), cs.length ≤ k → re.replaceAll repl cs k true = [] := by
  intro cs
  induction cs with
  | nil =>
    intro k _
    cases k <;> simp only [Regexp.replaceAll] <;> cases (re.matchAt []).head? <;> rfl
  | cons c cs ih =>
    intro k hk
    cases k with
    | zero => simp at hk
    | succ k =>
      simp only [Regexp.replaceAll]
      exact ih k (by simpa using hk)

theorem rdropWhile_cons_eq (p : Char → Bool) (c : Char) (cs : List Char) :
    (c :: cs).rdropWhile p =
      if (∀ x ∈ c :: cs, p x = true) then [] else c :: cs.rdropWhile p := by
  induction cs using List.reverseRecOn with
  | nil =>
    rw [List.rdropWhile_singleton]
    by_cases hc : p c = true <;> simp [hc]
  | append_singleton q e ih =>
    by_cases he : p e = true
    · rw [← List.cons_append, List.rdropWhile_concat_pos _ _ _ he,
        List.rdropWhile_concat_pos _ _ _ he, ih]
      have : (∀ x ∈ c :: (q ++ [e]), p x = true) ↔ (∀ x ∈ c :: q, p x = true) := by
        constructor
        · intro h x hx
          exact h x (by
            rcases List.mem_cons.mp hx with rfl | hx
            · exact List.mem_cons_self _ _
            · exact List.mem_cons_of_mem _ (List.mem_append_left _ hx))
        · intro h x hx
          rcases List.mem_cons.mp hx with rfl | hx
          · exact h _ (List.mem_cons_self _ _)
          · rcases List.mem_append.mp hx with hx | hx
            · exact h x (List.mem_cons_of_mem _ hx)
            · rw [List.mem_singleton.mp hx]; exact he
      simp only [List.cons_append, this]
    · rw [← List.cons_append, List.rdropWhile_concat_neg _ _ _ he,
        List.rdropWhile_concat_neg _ _ _ he]
      have : ¬ (∀ x ∈ c :: q ++ [e], p x = true) := fun h => he (h e (by simp))
      rw [if_neg this]; rfl

/-- Meaning of `chomper.ReplaceAllString s ""`: every trailing line feed is dropped. -/
theorem chomper_replaceAll (s : List Char) :
    ∀ b, chomper.replaceAll [] s 0 b = s.rdropWhile (fun c => decide (c = newline)) := by
  induction s with
  | nil =>
    intro b
    simp [Regexp.replaceAll, head?_matchAt_chomper]
  | cons c cs ih =>
    intro b
    rw [rdropWhile_cons_eq]
    by_cases hall : ∀ x ∈ c :: cs, x = newline
    · have hall2 : ∀ x ∈ c :: cs, decide (x = newline) = true := fun x hx => by simpa using hall x hx
      rw [if_pos hall2]
      simp only [Regexp.replaceAll, head?_matchAt_chomper]
      rw [if_pos ⟨by simp, hall⟩]
      simp only [List.length_cons, List.length_nil, Nat.sub_zero, Nat.add_one_ne_zero, if_false,
        List.nil_append, Nat.add_sub_cancel]
      exact replaceAll_skip _ _ _ _ (Nat.le_refl _)
    · have hall2 : ¬ ∀ x ∈ c :: cs, decide (x = newline) = true :=
        fun h => hall (fun x hx => by simpa using h x hx)
      rw [if_neg hall2]
      simp only [Regexp.replaceAll, head?_matchAt_chomper]
      rw [if_neg (fun h => hall h.2)]
      simp only [ih]

theorem chomper_replaceAllString (s : String) :
    chomper.ReplaceAllString s "" = ⟨s.data.rdropWhile (fun c => decide (c = newline))⟩ := by
  simp only [Regexp.ReplaceAllString]
  rw [chomper_replaceAll]

/-- The three expressions on sample texts, as Go evaluates them. -/
theorem regexp_samples :
    hasOnlyOneNewLine.MatchString "cat: 3\n" = true ∧
      hasOnlyOneNewLine.MatchString "\n" = false ∧
      hasOnlyOneNewLine.MatchString "a\n\n" = false ∧
      hasOnlyOneNewLine.MatchString "a\nb\n" = true ∧
      endWithNewLine.MatchString "\n" = true ∧
      endWithNewLine.MatchString "a\nb" = false ∧
      chomper.ReplaceAllString "a\nb\n\n\n" "" = "a\nb" ∧
      chomper.ReplaceAllString "\n\n" "" = "" ∧
      chomper.ReplaceAllString "a\n\nb" "" = "a\n\nb" := by
  decide

/-! ## Lemmas on texts -/

theorem lastChar_eq_some_iff (s : String) (c : Char) :
    lastChar s = some c ↔ ∃ pre, s.data = pre ++ [c] :=
  List.getLast?_eq_some_iff

theorem endWithNewLine_matchString_iff (s : String) :
    endWithNewLine.MatchString s = true ↔ lastChar s = some newline := by
  rw [endWithNewLine_matchString, lastChar_eq_some_iff]

theorem hasOnlyOneNewLine_matchString_iff (s : String) :
    hasOnlyOneNewLine.MatchString s = true ↔
      lastChar s = some newline ∧ charBeforeLast s ≠ none ∧ charBeforeLast s ≠ some newline := by
  rw [hasOnlyOneNewLine_matchString]
  constructor
  · rintro ⟨pre, c, h, hc⟩
    have h2 : s.data = (pre ++ [c]) ++ [newline] := by rw [h]; simp
    refine ⟨(lastChar_eq_some_iff _ _).mpr ⟨_, h2⟩, ?_, ?_⟩
    · simp [charBeforeLast, h2]
    · simp only [charBeforeLast, h2, List.dropLast_concat, List.getLast?_concat]
      intro h3
      exact hc (Option.some.inj h3)
  · rintro ⟨h1, h2, h3⟩
    obtain ⟨q, hq⟩ := (lastChar_eq_some_iff _ _).mp h1
    simp only [charBeforeLast, hq, List.dropLast_concat] at h2 h3
    cases hl : q.getLast? with
    | none => exact absurd hl h2
    | some c =>
      obtain ⟨pre, hpre⟩ := List.getLast?_eq_some_iff.mp hl
      refine ⟨pre, c, by rw [hq, hpre]; simp, ?_⟩
      rintro rfl
      exact h3 hl

/-- A text that ends with one line feed after another character loses exactly
that line feed when its trailing line feeds are stripped. -/
theorem stripTrailingNewlines_of_one (s : String)
    (h : lastChar s = some newline ∧ charBeforeLast s ≠ none ∧ charBeforeLast s ≠ some newline) :
    stripTrailingNewlines s = dropLastChar s := by
  obtain ⟨pre, c, hs, hc⟩ := (hasOnlyOneNewLine_matchString s).mp
    ((hasOnlyOneNewLine_matchString_iff s).mpr h)
  have h2 : s.data = (pre ++ [c]) ++ [newline] := by rw [hs]; simp
  simp only [stripTrailingNewlines, dropLastChar, h2, List.dropLast_concat]
  rw [List.rdropWhile_concat_pos _ _ _ (by simp), List.rdropWhile_concat_neg _ _ _ (by simpa using hc)]

theorem lastChar_stripTrailingNewlines (s : String) :
    lastChar (stripTrailingNewlines s) ≠ some newline := by
  intro h
  simp only [lastChar, stripTrailingNewlines] at h
  have hne : s.data.rdropWhile (fun c => decide (c = newline)) ≠ [] := by
    intro h0
    rw [h0] at h
    simp at h
  have := List.rdropWhile_last_not (fun c => decide (c = newline)) s.data hne
  rw [List.getLast?_eq_getLast _ hne] at h
  exact this (by simpa using Option.some.inj h)

theorem stripTrailingNewlines_of_lastChar_ne (s : String) (h : lastChar s ≠ some newline) :
    stripTrailingNewlines s = s := by
  have : s.data.rdropWhile (fun c => decide (c = newline)) = s.data := by
    rw [List.rdropWhile_eq_self_iff]
    intro hl
    simp only [lastChar, List.getLast?_eq_getLast _ hl] at h
    simpa using fun h2 => h (congrArg some h2)
  simp only [stripTrailingNewlines, this]

theorem lastChar_dropLastChar (s : String) : lastChar (dropLastChar s) = charBeforeLast s := rfl

/-! ## Lemmas on `encodeOperator` -/

/-- One turn of the loop, with the regular expressions read as character tests. -/
theorem encodeOperator_body_eq (lib : Library) (context : Context)
    (preferences : encoderPreferences) (candidate : CandidateNode) :
    encodeOperator.body lib context preferences candidate =
      match encodeToString lib candidate preferences with
      | .panicked msg => .panicked msg
      | .returned (_, some err) => .returned (.error err)
      | .returned (text, none) =>
        .returned (.ok (candidate.CreateReplacement .ScalarNode "!!str"
          (normaliseTrailingNewline preferences
            (context.GetVariable ("decoded: " ++ lib.GetKey candidate)) text))) := by
  unfold encodeOperator.body
  cases h : encodeToString lib candidate preferences with
  | panicked msg => rfl
  | returned p =>
    obtain ⟨text, err⟩ := p
    cases err with
    | some e => rfl
    | none =>
      simp only [normaliseTrailingNewline, chomper_replaceAllString]
      congr 3
      have hkept :
          (match context.GetVariable ("decoded: " ++ lib.GetKey candidate) with
            | some (original :: _) =>
              if hasOnlyOneNewLine.MatchString text = true then
                if (!endWithNewLine.MatchString original.Value) = true then
                  (⟨text.data.rdropWhile (fun c => decide (c = newline))⟩ : String)
                else text
              else text
            | _ => text) =
          (match context.GetVariable ("decoded: " ++ lib.GetKey candidate) with
            | some (original :: _) =>
              if lastChar text = some newline ∧ charBeforeLast text ≠ none ∧
                  charBeforeLast text ≠ some newline ∧ lastChar original.Value ≠ some newline then
                dropLastChar text
              else text
            | _ => text) := by
        cases context.GetVariable ("decoded: " ++ lib.GetKey candidate) with
        | none => rfl
        | some l =>
          cases l with
          | nil => rfl
          | cons original rest =>
            simp only
            by_cases h1 : hasOnlyOneNewLine.MatchString text = true
            · have h1' := (hasOnlyOneNewLine_matchString_iff text).mp h1
              by_cases h2 : endWithNewLine.MatchString original.Value = true
              · have h2' := (endWithNewLine_matchString_iff _).mp h2
                simp [h1, h2, h2']
              · have h2' : lastChar original.Value ≠ some newline :=
                  fun h => h2 ((endWithNewLine_matchString_iff _).mpr h)
                have h3 := stripTrailingNewlines_of_one text h1'
                simp only [stripTrailingNewlines] at h3
                simp [h1, h2, h2', h1'.1, h1'.2.1, h1'.2.2, h3]
            · have h1' : ¬ (lastChar text = some newline ∧ charBeforeLast text ≠ none ∧
                  charBeforeLast text ≠ some newline) :=
                fun h => h1 ((hasOnlyOneNewLine_matchString_iff text).mpr h)
              have h4 : ¬ (lastChar text = some newline ∧ charBeforeLast text ≠ none ∧
                  charBeforeLast text ≠ some newline ∧ lastChar original.Value ≠ some newline) :=
                fun h => h1' ⟨h.1, h.2.1, h.2.2.1⟩
              rw [if_neg h1, if_neg h4]
      rw [hkept]
      rfl

theorem forall₂_getElem? {α β : Type} {R : α → β → Prop} {l₁ : List α} {l₂ : List β}
    (h : List.Forall₂ R l₁ l₂) :
    ∀ (i : Nat) (a : α), l₁[i]? = some a → ∃ b, l₂[i]? = some b ∧ R a b := by
  induction h with
  | nil => intro i a ha; simp at ha
  | cons hab _ ih =>
    intro i a ha
    cases i with
    | zero =>
      simp only [List.getElem?_cons_zero, Option.some.injEq] at ha
      subst ha
      exact ⟨_, by simp, hab⟩
    | succ i =>
      simp only [List.getElem?_cons_succ] at ha ⊢
      exact ih i a ha

theorem forall₂_mem_right {α β : Type} {R : α → β → Prop} {l₁ : List α} {l₂ : List β}
    (h : List.Forall₂ R l₁ l₂) : ∀ b ∈ l₂, ∃ a, a ∈ l₁ ∧ R a b := by
  induction h with
  | nil => intro b hb; simp at hb
  | cons hab _ ih =>
    intro b hb
    rcases List.mem_cons.mp hb with rfl | hb
    · exact ⟨_, List.mem_cons_self _ _, hab⟩
    · obtain ⟨a, ha, hr⟩ := ih b hb
      exact ⟨a, List.mem_cons_of_mem _ ha, hr⟩

/-- A turn of the loop pushes a node exactly when the node was printed without error. -/
theorem encodeOperator_body_ok_iff (lib : Library) (context : Context)
    (preferences : encoderPreferences) (candidate r : CandidateNode) :
    encodeOperator.body lib context preferences candidate = .returned (.ok r) ↔
      ∃ text, encodeToString lib candidate preferences = .returned (text, none) ∧
        r = candidate.CreateReplacement .ScalarNode "!!str"
          (normaliseTrailingNewline preferences
            (context.GetVariable ("decoded: " ++ lib.GetKey candidate)) text) := by
  rw [encodeOperator_body_eq]
  cases h : encodeToString lib candidate preferences with
  | panicked msg => simp
  | returned p =>
    obtain ⟨text, err⟩ := p
    cases err with
    | some e => simp
    | none =>
      simp only [Run.returned.injEq, Except.ok.injEq, Prod.mk.injEq, and_true]
      constructor
      · intro h1
        exact ⟨text, rfl, h1.symm⟩
      · rintro ⟨t, rfl, h1⟩
        exact h1.symm

/-- A turn of the loop fails exactly when printing the node returned an error. -/
theorem encodeOperator_body_error_iff (lib : Library) (context : Context)
    (preferences : encoderPreferences) (candidate : CandidateNode) (e : GoError) :
    encodeOperator.body lib context preferences candidate = .returned (.error e) ↔
      ∃ text, encodeToString lib candidate preferences = .returned (text, some e) := by
  rw [encodeOperator_body_eq]
  cases h : encodeToString lib candidate preferences with
  | panicked msg => simp
  | returned p =>
    obtain ⟨text, err⟩ := p
    cases err with
    | some e' => simp
    | none => simp

/-- The loop ends without error only after pushing one node per selected node. -/
theorem encodeOperator_loop_ok (lib : Library) (context : Context)
    (preferences : encoderPreferences) :
    ∀ (nodes acc : List CandidateNode) (ctx' : Context),
      encodeOperator.loop lib context preferences nodes acc = .returned (ctx', none) →
      ∃ rs, ctx' = context.ChildContext (acc ++ rs) ∧
        List.Forall₂
          (fun c r => encodeOperator.body lib context preferences c = .returned (.ok r))
          nodes rs := by
  intro nodes
  induction nodes with
  | nil =>
    intro acc ctx' h
    simp only [encodeOperator.loop, Run.returned.injEq, Prod.mk.injEq, and_true] at h
    exact ⟨[], by simp [h], List.Forall₂.nil⟩
  | cons c cs ih =>
    intro acc ctx' h
    simp only [encodeOperator.loop] at h
    cases hb : encodeOperator.body lib context preferences c with
    | panicked msg => simp [hb] at h
    | returned x =>
      cases x with
      | error e => simp [hb] at h
      | ok node =>
        simp only [hb] at h
        obtain ⟨rs, hctx, hrs⟩ := ih _ _ h
        exact ⟨node :: rs, by simp [hctx], List.Forall₂.cons hb hrs⟩

/-- The loop stops at the first node that fails to print. -/
theorem encodeOperator_loop_error (lib : Library) (context : Context)
    (preferences : encoderPreferences) (c : CandidateNode) (post : List CandidateNode)
    (e : GoError)
    (hc : encodeOperator.body lib context preferences c = .returned (.error e)) :
    ∀ (pre acc : List CandidateNode),
      (∀ p ∈ pre, ∃ r, encodeOperator.body lib context preferences p = .returned (.ok r)) →
      encodeOperator.loop lib context preferences (pre ++ c :: post) acc =
        .returned (Context.empty, some e) := by
  intro pre
  induction pre with
  | nil =>
    intro acc _
    simp only [List.nil_append, encodeOperator.loop, hc]
  | cons p ps ih =>
    intro acc hp
    obtain ⟨r, hr⟩ := hp p (List.mem_cons_self _ _)
    simp only [List.cons_append, encodeOperator.loop, hr]
    exact ih _ (fun q hq => hp q (List.mem_cons_of_mem _ hq))

/-- The nodes `encodeOperator` returns, against the nodes it was given. -/
theorem encodeOperator_ok (lib : Library) (context : Context)
    (preferences : encoderPreferences) (ctx' : Context)
    (h : encodeOperator lib context preferences = .returned (ctx', none)) :
    ∃ nodes results, context.MatchingNodes = some nodes ∧
      ctx' = context.ChildContext results ∧
      List.Forall₂
        (fun c r => ∃ text, encodeToString lib c preferences = .returned (text, none) ∧
          r = c.CreateReplacement .ScalarNode "!!str"
            (normaliseTrailingNewline preferences
              (context.GetVariable ("decoded: " ++ lib.GetKey c)) text))
        nodes results := by
  unfold encodeOperator at h
  cases hn : context.MatchingNodes with
  | none => simp [hn] at h
  | some nodes =>
    simp only [hn] at h
    obtain ⟨rs, hctx, hrs⟩ := encodeOperator_loop_ok lib context preferences nodes [] ctx' h
    refine ⟨nodes, rs, rfl, by simpa using hctx, ?_⟩
    exact hrs.imp (fun c r hcr => (encodeOperator_body_ok_iff lib context preferences c r).mp hcr)

/-- The normalisation drops the final line feed when the stash asks for it. -/
theorem normaliseTrailingNewline_of_stash (prefs : encoderPreferences)
    (original : CandidateNode) (rest : List CandidateNode) (text : String)
    (h : lastChar text = some newline ∧ charBeforeLast text ≠ none ∧
      charBeforeLast text ≠ some newline ∧ lastChar original.Value ≠ some newline) :
    normaliseTrailingNewline prefs (some (original :: rest)) text = dropLastChar text := by
  simp only [normaliseTrailingNewline, if_pos h]
  by_cases hs : singleLine prefs
  · rw [if_pos hs]
    exact stripTrailingNewlines_of_lastChar_ne _ (by rw [lastChar_dropLastChar]; exact h.2.2.1)
  · rw [if_neg hs]

/-- For a single-line format the normalised text never ends with a line feed. -/
theorem lastChar_normaliseTrailingNewline_of_singleLine (prefs : encoderPreferences)
    (stash : Option (List CandidateNode)) (text : String) (hs : singleLine prefs) :
    lastChar (normaliseTrailingNewline prefs stash text) ≠ some newline := by
  simp only [normaliseTrailingNewline, if_pos hs]
  exact lastChar_stripTrailingNewlines _

/-- Outside the single-line formats the normalisation leaves the text alone
unless the stash asks for the final line feed to go. -/
theorem normaliseTrailingNewline_unchanged (prefs : encoderPreferences)
    (stash : Option (List CandidateNode)) (text : String) (hs : ¬ singleLine prefs)
    (h : stash = none ∨ stash = some [] ∨
      (∃ original rest, stash = some (original :: rest) ∧
        lastChar original.Value = some newline) ∨
      ¬ (lastChar text = some newline ∧ charBeforeLast text ≠ some newline)) :
    normaliseTrailingNewline prefs stash text = text := by
  simp only [normaliseTrailingNewline, if_neg hs]
  rcases h with rfl | rfl | ⟨original, rest, rfl, ho⟩ | ht
  · rfl
  · rfl
  · simp only
    rw [if_neg (fun hc => hc.2.2.2 ho)]
  · cases stash with
    | none => rfl
    | some l =>
      cases l with
      | nil => rfl
      | cons original rest =>
        simp only
        rw [if_neg (fun hc => ht ⟨hc.1, hc.2.2.1⟩)]

/-! ## Properties of `encodeOperator` -/

/-- The stash rule where the guard `hasOnlyOneNewLine` matches: for every
selected node and every output format, if the serialized text ends with a line
feed that follows a character which is not a line feed, the variable
`"decoded: " + candidate.GetKey()` holds a non-empty list and the value of its
first node does not end with a line feed, then the value of the resulting
scalar is the serialized text without that final line feed. -/
theorem encodeOperator_strips_newline_of_stashed_original
    (lib : Library) (context : Context) (preferences : encoderPreferences) (ctx' : Context)
    (nodes : List CandidateNode) (i : Nat) (candidate : CandidateNode) (text : String)
    (original : CandidateNode) (rest : List CandidateNode)
    (hsel : context.MatchingNodes = some nodes) (hi : nodes[i]? = some candidate)
    (hrun : encodeOperator lib context preferences = .returned (ctx', none))
    (htext : encodeToString lib candidate preferences = .returned (text, none))
    (hlast : lastChar text = some newline)
    (hsome : charBeforeLast text ≠ none)
    (hbefore : charBeforeLast text ≠ some newline)
    (hstash : context.GetVariable ("decoded: " ++ lib.GetKey candidate) = some (original :: rest))
    (horiginal : lastChar original.Value ≠ some newline) :
    ∃ results r, ctx'.MatchingNodes = some results ∧ results[i]? = some r ∧
      r.Value = dropLastChar text ∧ lastChar r.Value ≠ some newline := by
  obtain ⟨nodes', results, hsel', hctx, hall⟩ := encodeOperator_ok lib context preferences ctx' hrun
  rw [hsel] at hsel'
  obtain rfl := Option.some.inj hsel'
  obtain ⟨r, hr, text', htext', hrv⟩ := forall₂_getElem? hall i candidate hi
  rw [htext] at htext'
  simp only [Run.returned.injEq, Prod.mk.injEq, and_true] at htext'
  subst htext'
  have hv : r.Value = dropLastChar text := by
    rw [hrv, hstash]
    exact normaliseTrailingNewline_of_stash preferences original rest text
      ⟨hlast, hsome, hbefore, horiginal⟩
  refine ⟨results, r, by rw [hctx]; rfl, hr, hv, ?_⟩
  rw [hv, lastChar_dropLastChar]
  exact hbefore

/-- The stash rule on `"cat: 3"`, decoded and encoded again as YAML. -/
theorem encodeOperator_strips_newline_of_stashed_original_witness :
    ∃ results r,
      ((sampleContext [sampleScalar "cat: 3" (some 1)] "decoded: k"
          [sampleScalar "cat: 3" (some 1)]).ChildContext
          [sampleScalar "cat: 3" (some 1)]).MatchingNodes = some results ∧
      results[0]? = some r ∧ r.Value = dropLastChar "cat: 3\n" ∧
      lastChar r.Value ≠ some newline :=
  encodeOperator_strips_newline_of_stashed_original sampleLibrary
    (sampleContext [sampleScalar "cat: 3" (some 1)] "decoded: k" [sampleScalar "cat: 3" (some 1)])
    ⟨.YamlOutputFormat, 2⟩ _ [sampleScalar "cat: 3" (some 1)] 0 (sampleScalar "cat: 3" (some 1))
    "cat: 3\n" (sampleScalar "cat: 3" (some 1)) [] rfl rfl rfl rfl
    (by decide) (by decide) (by decide) rfl (by decide)

/-- C1 (the code at the failing input): the selected node is the empty string
scalar, which the YAML-style encoder prints as a lone line feed.  The text has
exactly one trailing line feed (its last character is a line feed and there is
no character before it), the variable `"decoded: " + candidate.GetKey()` holds
a one-element list whose node has the empty value (no final line feed), and yet
the resulting scalar keeps the line feed: the guard `[^\n].*\n$` asks for a
character before the final line feed, against its name `hasOnlyOneNewLine` and
the comment "original block did not have a newline at the end, get rid of this
one too". -/
theorem encodeOperator_keeps_lone_newline :
    encodeToString sampleLibrary (sampleScalar "" (some 1)) ⟨.YamlOutputFormat, 2⟩ =
        .returned ("\n", none) ∧
      lastChar "\n" = some newline ∧ charBeforeLast "\n" = none ∧
      loneNewlineContext.GetVariable
          ("decoded: " ++ sampleLibrary.GetKey (sampleScalar "" (some 1))) =
        some [sampleScalar "" (some 1)] ∧
      lastChar (sampleScalar "" (some 1)).Value ≠ some newline ∧
      encodeOperator sampleLibrary loneNewlineContext ⟨.YamlOutputFormat, 2⟩ =
        .returned (loneNewlineContext.ChildContext [sampleScalar "\n" (some 1)], none) ∧
      (sampleScalar "\n" (some 1)).Value ≠ dropLastChar "\n" ∧
      lastChar (sampleScalar "\n" (some 1)).Value = some newline :=
  ⟨rfl, by decide, by decide, rfl, by decide, rfl, by decide, by decide⟩

/-- C2: in `encodeOperator`, when the format is JSON with indent 0, or CSV, or
TSV, then for every selected node, every text the encoder produces and every
state of the variable environment, the value of the resulting scalar never ends
with a line feed. -/
theorem encodeOperator_singleLine_no_trailing_newline
    (lib : Library) (context : Context) (preferences : encoderPreferences) (ctx' : Context)
    (results : List CandidateNode) (r : CandidateNode)
    (hformat : (preferences.format = .JSONOutputFormat ∧ preferences.indent = 0) ∨
      preferences.format = .CSVOutputFormat ∨ preferences.format = .TSVOutputFormat)
    (hrun : encodeOperator lib context preferences = .returned (ctx', none))
    (hres : ctx'.MatchingNodes = some results) (hr : r ∈ results) :
    lastChar r.Value ≠ some newline := by
  obtain ⟨nodes, results', -, hctx, hall⟩ := encodeOperator_ok lib context preferences ctx' hrun
  rw [hctx] at hres
  obtain rfl : results' = results := Option.some.inj hres
  obtain ⟨c, -, text, -, hrv⟩ := forall₂_mem_right hall r hr
  rw [hrv]
  exact lastChar_normaliseTrailingNewline_of_singleLine preferences _ text hformat

/-- Witness of C2: `cat: 3`, whose original ended with a line feed, encoded as JSON with indent 0. -/
theorem encodeOperator_singleLine_no_trailing_newline_witness :
    lastChar (sampleScalar "cat: 3" (some 1)).Value ≠ some newline :=
  encodeOperator_singleLine_no_trailing_newline sampleLibrary catNewlineContext
    ⟨.JSONOutputFormat, 0⟩ _ [sampleScalar "cat: 3" (some 1)] (sampleScalar "cat: 3" (some 1))
    (Or.inl ⟨rfl, rfl⟩) rfl rfl (List.mem_singleton.mpr rfl)

/-- C5: when `encodeOperator` succeeds, the matching nodes of the returned
context are, in selection order, one node per selected node, each the
replacement of that node by a scalar tagged `!!str` whose value is the
serialized text of the node after trailing-newline normalisation. -/
theorem encodeOperator_replaces_each_node
    (lib : Library) (context : Context) (preferences : encoderPreferences) (ctx' : Context)
    (hrun : encodeOperator lib context preferences = .returned (ctx', none)) :
    ∃ nodes results, context.MatchingNodes = some nodes ∧
      ctx'.MatchingNodes = some results ∧
      results.length = nodes.length ∧
      List.Forall₂
        (fun candidate r => ∃ text,
          encodeToString lib candidate preferences = .returned (text, none) ∧
          r = candidate.CreateReplacement .ScalarNode "!!str"
            (normaliseTrailingNewline preferences
              (context.GetVariable ("decoded: " ++ lib.GetKey candidate)) text) ∧
          r.Kind = .ScalarNode ∧ r.Tag = "!!str" ∧
          r.Value = normaliseTrailingNewline preferences
              (context.GetVariable ("decoded: " ++ lib.GetKey candidate)) text ∧
          r.Key = candidate.Key ∧ r.Parent = candidate.Parent)
        nodes results := by
  obtain ⟨nodes, results, hsel, hctx, hall⟩ := encodeOperator_ok lib context preferences ctx' hrun
  refine ⟨nodes, results, hsel, by rw [hctx]; rfl, hall.length_eq.symm, ?_⟩
  refine hall.imp ?_
  rintro c r ⟨text, htext, hr⟩
  exact ⟨text, htext, hr, by rw [hr]; rfl, by rw [hr]; rfl, by rw [hr]; rfl, by rw [hr]; rfl,
    by rw [hr]; rfl⟩

/-- Witness of C5: `cat: 3` with a stashed original, encoded as YAML. -/
theorem encodeOperator_replaces_each_node_witness :
    ∃ nodes results, catContext.MatchingNodes = some nodes ∧
      (catContext.ChildContext [sampleScalar "cat: 3" (some 1)]).MatchingNodes = some results ∧
      results.length = nodes.length ∧
      List.Forall₂
        (fun candidate r => ∃ text,
          encodeToString sampleLibrary candidate ⟨.YamlOutputFormat, 2⟩ =
            .returned (text, none) ∧
          r = candidate.CreateReplacement .ScalarNode "!!str"
            (normaliseTrailingNewline ⟨.YamlOutputFormat, 2⟩
              (catContext.GetVariable ("decoded: " ++ sampleLibrary.GetKey candidate)) text) ∧
          r.Kind = .ScalarNode ∧ r.Tag = "!!str" ∧
          r.Value = normaliseTrailingNewline ⟨.YamlOutputFormat, 2⟩
              (catContext.GetVariable ("decoded: " ++ sampleLibrary.GetKey candidate)) text ∧
          r.Key = candidate.Key ∧ r.Parent = candidate.Parent)
        nodes results :=
  encodeOperator_replaces_each_node sampleLibrary catContext ⟨.YamlOutputFormat, 2⟩ _ rfl

/-- C10: in `encodeOperator`, for every format that is not JSON with indent 0,
CSV or TSV: if no stash applies to the node (the variable
`"decoded: " + candidate.GetKey()` is absent or an empty list), or the value of
the stashed original ends with a line feed, or the serialized text does not end
with exactly one line feed, then the value of the resulting scalar is the
serialized text, unchanged. -/
theorem encodeOperator_keeps_text
    (lib : Library) (context : Context) (preferences : encoderPreferences) (ctx' : Context)
    (nodes : List CandidateNode) (i : Nat) (candidate : CandidateNode) (text : String)
    (hformat : ¬ ((preferences.format = .JSONOutputFormat ∧ preferences.indent = 0) ∨
      preferences.format = .CSVOutputFormat ∨ preferences.format = .TSVOutputFormat))
    (hsel : context.MatchingNodes = some nodes) (hi : nodes[i]? = some candidate)
    (hrun : encodeOperator lib context preferences = .returned (ctx', none))
    (htext : encodeToString lib candidate preferences = .returned (text, none))
    (hcase :
      context.GetVariable ("decoded: " ++ lib.GetKey candidate) = none ∨
      context.GetVariable ("decoded: " ++ lib.GetKey candidate) = some [] ∨
      (∃ original rest,
        context.GetVariable ("decoded: " ++ lib.GetKey candidate) = some (original :: rest) ∧
        lastChar original.Value = some newline) ∨
      ¬ (lastChar text = some newline ∧ charBeforeLast text ≠ some newline)) :
    ∃ results r, ctx'.MatchingNodes = some results ∧ results[i]? = some r ∧
      r.Value = text := by
  obtain ⟨nodes', results, hsel', hctx, hall⟩ := encodeOperator_ok lib context preferences ctx' hrun
  rw [hsel] at hsel'
  obtain rfl := Option.some.inj hsel'
  obtain ⟨r, hr, text', htext', hrv⟩ := forall₂_getElem? hall i candidate hi
  rw [htext] at htext'
  simp only [Run.returned.injEq, Prod.mk.injEq, and_true] at htext'
  subst htext'
  refine ⟨results, r, by rw [hctx]; rfl, hr, ?_⟩
  rw [hrv]
  exact normaliseTrailingNewline_unchanged preferences _ text hformat hcase

/-- Witness of C10: `cat: 3`, whose original ended with a line feed, encoded as YAML. -/
theorem encodeOperator_keeps_text_witness :
    ∃ results r,
      (catNewlineContext.ChildContext [sampleScalar "cat: 3\n" (some 1)]).MatchingNodes =
        some results ∧
      results[0]? = some r ∧ r.Value = "cat: 3\n" :=
  encodeOperator_keeps_text sampleLibrary catNewlineContext ⟨.YamlOutputFormat, 2⟩ _
    [sampleScalar "cat: 3" (some 1)] 0 (sampleScalar "cat: 3" (some 1)) "cat: 3\n"
    (by decide) rfl rfl rfl rfl
    (Or.inr (Or.inr (Or.inl ⟨sampleScalar "cat: 3\n" (some 1), [], rfl, by decide⟩)))

/-- C8 (amended): encoding with an output format for which no encoder is
registered is a crash, not a reportable error: for every format outside the nine
that `configureEncoder` knows, `configureEncoder` panics with `invalid encoder`,
and so do `encodeToString` and `encodeOperator` on a non-empty selection,
instead of returning the error `no support for output format`. -/
theorem encodeToString_unregistered_format_panics
    (lib : Library) (candidate : CandidateNode) (rest : List CandidateNode)
    (vars : String → Option (List CandidateNode)) (code : Nat) (indent : Int) :
    configureEncoder lib (.other code) indent = .panicked "invalid encoder" ∧
      encodeToString lib candidate ⟨.other code, indent⟩ = .panicked "invalid encoder" ∧
      encodeOperator lib ⟨some (candidate :: rest), vars⟩ ⟨.other code, indent⟩ =
        .panicked "invalid encoder" :=
  ⟨rfl, rfl, rfl⟩

/-- C8 (counterexample): with the output format of code 100, which is none of
the nine that `configureEncoder` knows, `encodeToString` on a scalar and
`encodeOperator` on the selection of that scalar panic with `invalid encoder`;
neither returns the error `no support for output format`. -/
theorem encodeToString_unregistered_format_no_error :
    encodeToString sampleLibrary (sampleScalar "a" none) ⟨.other 100, 2⟩ =
        .panicked "invalid encoder" ∧
      (¬ ∃ text, encodeToString sampleLibrary (sampleScalar "a" none) ⟨.other 100, 2⟩ =
        .returned (text, some "no support for output format")) ∧
      encodeOperator sampleLibrary ⟨some [sampleScalar "a" none], fun _ => none⟩
          ⟨.other 100, 2⟩ =
        .panicked "invalid encoder" ∧
      (¬ ∃ ctx, encodeOperator sampleLibrary ⟨some [sampleScalar "a" none], fun _ => none⟩
          ⟨.other 100, 2⟩ =
        .returned (ctx, some "no support for output format")) := by
  refine ⟨rfl, ?_, rfl, ?_⟩
  · rintro ⟨text, h⟩
    exact Run.noConfusion h
  · rintro ⟨ctx, h⟩
    exact Run.noConfusion h

/-! ## Lemmas on `decodeOperator` -/

theorem decoded_name_inj (a b : String) (h : "decoded: " ++ a = "decoded: " ++ b) : a = b := by
  have h2 := congrArg String.data h
  simp only [String.data_append] at h2
  exact String.ext (List.append_cancel_left h2)

theorem getVariable_setVariable_self (context : Context) (name : String)
    (value : List CandidateNode) :
    (context.SetVariable name value).GetVariable name = some value := by
  simp [Context.SetVariable, Context.GetVariable]

theorem getVariable_setVariable_of_ne (context : Context) (name other : String)
    (value : List CandidateNode) (h : other ≠ name) :
    (context.SetVariable name value).GetVariable other = context.GetVariable other := by
  simp [Context.SetVariable, Context.GetVariable, h]

theorem stashOriginals_cons (lib : Library) (context : Context) (c : CandidateNode)
    (cs : List CandidateNode) :
    stashOriginals lib context (c :: cs) =
      stashOriginals lib (context.SetVariable ("decoded: " ++ lib.GetKey c) c.AsList) cs := rfl

theorem stashOriginals_append (lib : Library) (context : Context)
    (pre post : List CandidateNode) :
    stashOriginals lib context (pre ++ post) =
      stashOriginals lib (stashOriginals lib context pre) post := by
  simp [stashOriginals, List.foldl_append]

/-- Stashing nodes leaves alone every variable that is not the stash name of one of them. -/
theorem getVariable_stashOriginals_of_ne (lib : Library) (name : String) :
    ∀ (nodes : List CandidateNode) (context : Context),
      (∀ m ∈ nodes, name ≠ "decoded: " ++ lib.GetKey m) →
      (stashOriginals lib context nodes).GetVariable name = context.GetVariable name := by
  intro nodes
  induction nodes with
  | nil => intro context _; rfl
  | cons c cs ih =>
    intro context h
    rw [stashOriginals_cons, ih _ (fun m hm => h m (List.mem_cons_of_mem _ hm)),
      getVariable_setVariable_of_ne _ _ _ _ (h c (List.mem_cons_self _ _))]

theorem matchingNodes_stashOriginals (lib : Library) :
    ∀ (nodes : List CandidateNode) (context : Context),
      (stashOriginals lib context nodes).MatchingNodes = context.MatchingNodes := by
  intro nodes
  induction nodes with
  | nil => intro context; rfl
  | cons c cs ih => intro context; rw [stashOriginals_cons, ih]; rfl

theorem DecodeRun.length_eq {lib : Library} {d d' : lib.Decoder}
    {nodes results : List CandidateNode} (h : DecodeRun lib d nodes results d') :
    results.length = nodes.length := by
  induction h with
  | nil => rfl
  | cons _ _ _ ih => simp [ih]

/-- The loop follows a run of successful decodes, stashing each original on the way. -/
theorem decodeOperator_loop_run (lib : Library) {d d' : lib.Decoder}
    {pre rs : List CandidateNode} (h : DecodeRun lib d pre rs d') :
    ∀ (context : Context) (rest acc : List CandidateNode),
      decodeOperator.loop lib d context (pre ++ rest) acc =
        decodeOperator.loop lib d' (stashOriginals lib context pre) rest (acc ++ rs) := by
  induction h with
  | nil d =>
    intro context rest acc
    simp [stashOriginals]
  | @cons d d₁ d₂ d₃ candidate node rest' results hInit hDecode _ ih =>
    intro context rest acc
    simp only [List.cons_append, decodeOperator.loop, hInit, hDecode]
    have := ih (context.SetVariable ("decoded: " ++ lib.GetKey candidate) candidate.AsList) rest
      (acc ++ [{ node with Key := candidate.Key, Parent := candidate.Parent }])
    rw [List.append_assoc] at this
    exact this

/-- The loop ends without error only along a run of successful decodes. -/
theorem decodeOperator_loop_ok (lib : Library) :
    ∀ (nodes : List CandidateNode) (d : lib.Decoder) (context : Context)
      (acc : List CandidateNode),
      (decodeOperator.loop lib d context nodes acc).err = none →
      ∃ rs d', DecodeRun lib d nodes rs d' := by
  intro nodes
  induction nodes with
  | nil =>
    intro d context acc _
    exact ⟨[], d, DecodeRun.nil d⟩
  | cons c cs ih =>
    intro d context acc h
    rcases hI : lib.Init d c.Value with ⟨d₁, e⟩
    cases e with
    | some e => simp [decodeOperator.loop, hI] at h
    | none =>
      rcases hD : lib.Decode d₁ with ⟨d₂, x⟩
      cases x with
      | error e => simp [decodeOperator.loop, hI, hD] at h
      | ok node =>
        simp only [decodeOperator.loop, hI, hD] at h
        obtain ⟨rs, d', hrun⟩ := ih _ _ _ h
        exact ⟨_, d', DecodeRun.cons hI hD hrun⟩

/-- What a successful `decodeOperator` did: a run of successful decodes over
the selection, with every original stashed. -/
theorem decodeOperator_ok (lib : Library) (context : Context)
    (preferences : decoderPreferences) (out : DecodeOutcome)
    (hrun : decodeOperator lib context preferences = .returned out) (hok : out.err = none) :
    ∃ d₀ nodes rs d', createDecoder lib preferences.format = some d₀ ∧
      context.MatchingNodes = some nodes ∧ DecodeRun lib d₀ nodes rs d' ∧
      out = ⟨stashOriginals lib context nodes,
        (stashOriginals lib context nodes).ChildContext rs, none⟩ := by
  unfold decodeOperator at hrun
  cases hd : createDecoder lib preferences.format with
  | none =>
    simp only [hd, Run.returned.injEq] at hrun
    rw [← hrun] at hok
    simp at hok
  | some d₀ =>
    cases hn : context.MatchingNodes with
    | none => simp [hd, hn] at hrun
    | some nodes =>
      simp only [hd, hn, Run.returned.injEq] at hrun
      subst hrun
      obtain ⟨rs, d', hr⟩ := decodeOperator_loop_ok lib nodes d₀ context [] hok
      refine ⟨d₀, nodes, rs, d', rfl, rfl, hr, ?_⟩
      have := decodeOperator_loop_run lib hr context [] []
      simp only [List.append_nil, List.nil_append] at this
      rw [this]
      rfl

/-! ## Properties of `decodeOperator` -/

/-- C3 (amended): after `decodeOperator` succeeds on a context, for every node
`n` that was selected in that context and whose `GetKey()` differs from that of
every node selected after it, the variable `"decoded: " + n.GetKey()` of the
context, and of the returned child context, is a one-element list whose element
is `n` itself, the node before decoding with its original value. -/
theorem decodeOperator_stashes_original
    (lib : Library) (context : Context) (preferences : decoderPreferences)
    (out : DecodeOutcome) (pre post : List CandidateNode) (n : CandidateNode)
    (hsel : context.MatchingNodes = some (pre ++ n :: post))
    (hlater : ∀ m ∈ post, lib.GetKey m ≠ lib.GetKey n)
    (hrun : decodeOperator lib context preferences = .returned out) (hok : out.err = none) :
    out.context.GetVariable ("decoded: " ++ lib.GetKey n) = some [n] ∧
      out.result.GetVariable ("decoded: " ++ lib.GetKey n) = some [n] := by
  obtain ⟨d₀, nodes, rs, d', -, hsel', -, rfl⟩ :=
    decodeOperator_ok lib context preferences out hrun hok
  rw [hsel] at hsel'
  obtain rfl := Option.some.inj hsel'
  have key : (stashOriginals lib context (pre ++ n :: post)).GetVariable
      ("decoded: " ++ lib.GetKey n) = some [n] := by
    rw [stashOriginals_append, stashOriginals_cons,
      getVariable_stashOriginals_of_ne lib _ post _
        (fun m hm h => hlater m hm (decoded_name_inj _ _ h).symm),
      getVariable_setVariable_self]
    rfl
  exact ⟨key, key⟩

/-- Witness of C3 (amended): two scalars under different keys, decoded as YAML. -/
theorem decodeOperator_stashes_original_witness :
    (stashOriginals sampleLibrary
        ⟨some [sampleScalar "a" (some 1), sampleScalar "b" (some 2)], fun _ => none⟩
        [sampleScalar "a" (some 1), sampleScalar "b" (some 2)]).GetVariable
        ("decoded: " ++ sampleLibrary.GetKey (sampleScalar "a" (some 1))) =
      some [sampleScalar "a" (some 1)] ∧
    ((stashOriginals sampleLibrary
        ⟨some [sampleScalar "a" (some 1), sampleScalar "b" (some 2)], fun _ => none⟩
        [sampleScalar "a" (some 1), sampleScalar "b" (some 2)]).ChildContext
        [sampleScalar "a" (some 1), sampleScalar "b" (some 2)]).GetVariable
        ("decoded: " ++ sampleLibrary.GetKey (sampleScalar "a" (some 1))) =
      some [sampleScalar "a" (some 1)] :=
  decodeOperator_stashes_original sampleLibrary
    ⟨some [sampleScalar "a" (some 1), sampleScalar "b" (some 2)], fun _ => none⟩
    ⟨.YamlInputFormat⟩
    ⟨_, _, none⟩ [] [sampleScalar "b" (some 2)] (sampleScalar "a" (some 1)) rfl
    (by decide) rfl rfl

/-- C3 (counterexample): the selection holds two scalars with the same path key
and different values; `decodeOperator` succeeds, and the variable
`"decoded: " + GetKey()` of the first one holds the second node, not the first. -/
theorem decodeOperator_stash_overwritten :
    collidingContext.MatchingNodes = some [sampleScalar "x" none, sampleScalar "y" none] ∧
      sampleLibrary.GetKey (sampleScalar "x" none) = sampleLibrary.GetKey (sampleScalar "y" none) ∧
      decodeOperator sampleLibrary collidingContext ⟨.YamlInputFormat⟩ =
        .returned
          ⟨stashOriginals sampleLibrary collidingContext
              [sampleScalar "x" none, sampleScalar "y" none],
            (stashOriginals sampleLibrary collidingContext
              [sampleScalar "x" none, sampleScalar "y" none]).ChildContext
              [sampleScalar "x" none, sampleScalar "y" none],
            none⟩ ∧
      (stashOriginals sampleLibrary collidingContext
          [sampleScalar "x" none, sampleScalar "y" none]).GetVariable
          ("decoded: " ++ sampleLibrary.GetKey (sampleScalar "x" none)) =
        some [sampleScalar "y" none] ∧
      ((stashOriginals sampleLibrary collidingContext
          [sampleScalar "x" none, sampleScalar "y" none]).ChildContext
          [sampleScalar "x" none, sampleScalar "y" none]).GetVariable
          ("decoded: " ++ sampleLibrary.GetKey (sampleScalar "x" none)) =
        some [sampleScalar "y" none] ∧
      some [sampleScalar "y" none] ≠ some [sampleScalar "x" none] :=
  ⟨rfl, rfl, rfl, rfl, rfl, by decide⟩

/-- C4: when `decodeOperator` succeeds, the matching nodes of the returned
context are, in selection order, one node per selected node: the root returned
by the single `Decode` that follows the `Init` of the decoder on the value of
that node, with the key and the parent of that node. -/
theorem decodeOperator_splices_decoded_roots
    (lib : Library) (context : Context) (preferences : decoderPreferences)
    (out : DecodeOutcome)
    (hrun : decodeOperator lib context preferences = .returned out) (hok : out.err = none) :
    ∃ d₀ nodes results d', createDecoder lib preferences.format = some d₀ ∧
      context.MatchingNodes = some nodes ∧
      out.result.MatchingNodes = some results ∧
      results.length = nodes.length ∧
      DecodeRun lib d₀ nodes results d' := by
  obtain ⟨d₀, nodes, rs, d', hd, hsel, hr, rfl⟩ :=
    decodeOperator_ok lib context preferences out hrun hok
  exact ⟨d₀, nodes, rs, d', hd, hsel, rfl, hr.length_eq, hr⟩

/-- Witness of C4: two scalars decoded as YAML. -/
theorem decodeOperator_splices_decoded_roots_witness :
    ∃ d₀ nodes results d', createDecoder sampleLibrary .YamlInputFormat = some d₀ ∧
      collidingContext.MatchingNodes = some nodes ∧
      ((stashOriginals sampleLibrary collidingContext
          [sampleScalar "x" none, sampleScalar "y" none]).ChildContext
          [sampleScalar "x" none, sampleScalar "y" none]).MatchingNodes = some results ∧
      results.length = nodes.length ∧
      DecodeRun sampleLibrary d₀ nodes results d' :=
  decodeOperator_splices_decoded_roots sampleLibrary collidingContext ⟨.YamlInputFormat⟩
    ⟨_, _, none⟩ rfl rfl

/-- C6: `createDecoder` returns nil exactly for the formats other than JSON,
YAML, XML, Base64, Properties, CSV-object, TSV-object and URI, and then
`decodeOperator` returns the error `no support for input format` and the empty
context, for every input context, leaving its variables as they were. -/
theorem decodeOperator_unsupported_format
    (lib : Library) (context : Context) (preferences : decoderPreferences) :
    (createDecoder lib preferences.format = none ↔
      preferences.format ∉ [InputFormat.JsonInputFormat, .YamlInputFormat, .XMLInputFormat,
        .Base64InputFormat, .PropertiesInputFormat, .CSVObjectInputFormat,
        .TSVObjectInputFormat, .UriInputFormat]) ∧
    (createDecoder lib preferences.format = none →
      decodeOperator lib context preferences =
        .returned ⟨context, Context.empty, some "no support for input format"⟩) := by
  constructor
  · cases preferences.format <;> simp [createDecoder]
  · intro h
    simp only [decodeOperator, h]

/-- Witness of C6: a format that `createDecoder` does not know. -/
theorem decodeOperator_unsupported_format_witness :
    decodeOperator sampleLibrary catContext ⟨.other 7⟩ =
      .returned ⟨catContext, Context.empty, some "no support for input format"⟩ :=
  (decodeOperator_unsupported_format sampleLibrary catContext ⟨.other 7⟩).2 rfl

/-- C7: if the codec fails on some selected node (`Init` or `Decode` in
`decodeOperator`, printing in `encodeOperator`) after succeeding on the nodes
before it, the operator returns the error the codec raised for that node
together with the empty context; in `decodeOperator` only the originals up to
that node are stashed. -/
theorem codec_error_is_returned (lib : Library) :
    (∀ (context : Context) (preferences : decoderPreferences) (d₀ d d₁ : lib.Decoder)
      (pre post rs : List CandidateNode) (c : CandidateNode) (e : GoError),
      createDecoder lib preferences.format = some d₀ →
      context.MatchingNodes = some (pre ++ c :: post) →
      DecodeRun lib d₀ pre rs d →
      (lib.Init d c.Value = (d₁, some e) ∨
        ∃ d₂, lib.Init d c.Value = (d₁, none) ∧ lib.Decode d₁ = (d₂, .error e)) →
      decodeOperator lib context preferences =
        .returned ⟨stashOriginals lib context (pre ++ [c]), Context.empty, some e⟩) ∧
    (∀ (context : Context) (preferences : encoderPreferences)
      (pre post : List CandidateNode) (c : CandidateNode) (text : String) (e : GoError),
      context.MatchingNodes = some (pre ++ c :: post) →
      (∀ p ∈ pre, ∃ t, encodeToString lib p preferences = .returned (t, none)) →
      encodeToString lib c preferences = .returned (text, some e) →
      encodeOperator lib context preferences = .returned (Context.empty, some e)) := by
  constructor
  · intro context preferences d₀ d d₁ pre post rs c e hd hsel hpre hfail
    simp only [decodeOperator, hd, hsel]
    rw [decodeOperator_loop_run lib hpre context (c :: post) [], stashOriginals_append]
    rcases hfail with hI | ⟨d₂, hI, hD⟩
    · simp only [decodeOperator.loop, hI]
      rfl
    · simp only [decodeOperator.loop, hI, hD]
      rfl
  · intro context preferences pre post c text e hsel hpre hfail
    simp only [encodeOperator, hsel]
    refine encodeOperator_loop_error lib context preferences c post e
      ((encodeOperator_body_error_iff lib context preferences c e).mpr ⟨text, hfail⟩) pre [] ?_
    intro p hp
    obtain ⟨t, ht⟩ := hpre p hp
    exact ⟨_, (encodeOperator_body_ok_iff lib context preferences p _).mpr ⟨t, ht, rfl⟩⟩

/-- Witness of C7: a text the decoder refuses and a node the encoder refuses,
each second of three selected nodes. -/
theorem codec_error_is_returned_witness :
    decodeOperator sampleLibrary badTextContext ⟨.YamlInputFormat⟩ =
        .returned ⟨stashOriginals sampleLibrary badTextContext
          ([sampleScalar "a" none] ++ [sampleScalar "!bad" (some 1)]), Context.empty,
          some "syntax error"⟩ ∧
      encodeOperator sampleLibrary aliasContext ⟨.YamlOutputFormat, 2⟩ =
        .returned (Context.empty, some "cannot encode an alias") :=
  ⟨(codec_error_is_returned sampleLibrary).1 badTextContext ⟨.YamlInputFormat⟩ none none
      (some "!bad") [sampleScalar "a" none] [sampleScalar "c" (some 2)] [sampleScalar "a" none]
      (sampleScalar "!bad" (some 1)) "syntax error" rfl rfl
      (@DecodeRun.cons sampleLibrary none (some "a") none none (sampleScalar "a" none)
        (sampleScalar "a" none) [] [] rfl rfl (DecodeRun.nil _))
      (Or.inr ⟨none, rfl, rfl⟩),
    (codec_error_is_returned sampleLibrary).2 aliasContext ⟨.YamlOutputFormat, 2⟩
      [sampleScalar "a" none] [sampleScalar "c" (some 2)] (sampleAlias (some 1)) ""
      "cannot encode an alias" rfl
      (fun p hp => ⟨"a\n", by rw [List.mem_singleton.mp hp]; rfl⟩) rfl⟩

end Yqlib
